import Mathlib

/-!
Verification development for the PMFG (Planar Maximally Filtered Graph)
construction code of the Complex-Networks-in-Economy repository.

The repository contains several C/C++ variants of the same greedy
construction: extract all upper-triangle entries of an n-by-n proximity
matrix as weighted candidate edges, sort them by descending weight, and
insert each candidate into a growing graph whenever an (external, OGDF)
planarity oracle accepts it, stopping at the planar edge budget 3n-6.

Shallow embedding conventions:
* matrix weights are rationals (the C doubles hold finite non-NaN values);
* a graph is the list of committed edges in commit order, each edge an
  ordered pair of node indices;
* the OGDF planarity routines (isPlanar, DynamicPlanarSPQRTree.supportEdge)
  are third-party black boxes, so every construction function is
  parametrized by an oracle of type List Pair -> Pair -> Bool; theorems
  about planarity are stated for any predicate the oracle soundly preserves.
-/

namespace PMFG

/-- A node pair, as produced by the candidate scans (i, j). -/
abbrev Pair := Nat × Nat

/-- A weighted candidate edge: weight first, then the pair, mirroring the
C++ tuple (weight, u, v) of teste.cpp. -/
abbrev QEdge := ℚ × Pair

/-- A proximity matrix accessor, indexed the way the C code indexes
proximity_matrix[i][j]. -/
abbrev Mat := Nat → Nat → ℚ

/-- Row-major upper-triangle pair enumeration: the double loop
for i in 0..n-1, for j in i+1..n-1 used by every candidate scan in the
sources (teste.c, teste.cpp, part_000, part_001). -/
def upperPairs (n : Nat) : List Pair :=
  (List.range n).flatMap (fun i => (List.range' (i+1) (n - (i+1))).map (fun j => (i, j)))

/-- The candidate edge list extracted from the matrix, in scan order:
edges[k] = (w[i][j], (i, j)) over the upper triangle. -/
def edgesOf (w : Mat) (n : Nat) : List QEdge :=
  (upperPairs n).map (fun p => (w p.1 p.2, p))

/-- The descending order actually realized by std::sort over reversed
iterators on tuples (weight, i, j) in teste.cpp: a is placed no later
than b iff the tuple of b is lexicographically at most the tuple of a. -/
def eDesc (a b : QEdge) : Prop :=
  b.1 < a.1 ∨ (b.1 = a.1 ∧ (b.2.1 < a.2.1 ∨ (b.2.1 = a.2.1 ∧ b.2.2 ≤ a.2.2)))

instance : DecidableRel eDesc := fun a b => by unfold eDesc; infer_instance

instance : IsTotal QEdge eDesc := by
  constructor
  intro a b
  unfold eDesc
  rcases lt_trichotomy a.1 b.1 with h | h | h
  · exact Or.inr (Or.inl h)
  · rcases lt_trichotomy a.2.1 b.2.1 with h2 | h2 | h2
    · exact Or.inr (Or.inr ⟨h, Or.inl h2⟩)
    · rcases le_total a.2.2 b.2.2 with h3 | h3
      · exact Or.inr (Or.inr ⟨h, Or.inr ⟨h2, h3⟩⟩)
      · exact Or.inl (Or.inr ⟨h.symm, Or.inr ⟨h2.symm, h3⟩⟩)
    · exact Or.inl (Or.inr ⟨h.symm, Or.inl h2⟩)
  · exact Or.inl (Or.inl h)

instance : IsTrans QEdge eDesc := by
  constructor
  intro a b c hab hbc
  unfold eDesc at *
  rcases hab with h1 | ⟨e1, h1⟩ <;> rcases hbc with h2 | ⟨e2, h2⟩
  · exact Or.inl (h2.trans h1)
  · exact Or.inl (e2 ▸ h1)
  · exact Or.inl (e1 ▸ h2)
  · refine Or.inr ⟨e2.trans e1, ?_⟩
    rcases h1 with h1 | ⟨f1, h1⟩ <;> rcases h2 with h2 | ⟨f2, h2⟩
    · exact Or.inl (h2.trans h1)
    · exact Or.inl (f2 ▸ h1)
    · exact Or.inl (f1 ▸ h2)
    · exact Or.inr ⟨f2.trans f1, h2.trans h1⟩

instance : IsAntisymm QEdge eDesc := by
  constructor
  intro a b hab hba
  unfold eDesc at *
  have hw : a.1 = b.1 := by
    rcases hab with h | ⟨e, _⟩
    · rcases hba with h' | ⟨e', _⟩
      · exact absurd (h.trans h') (lt_irrefl _)
      · exact e'
    · exact e.symm
  have hi : a.2.1 = b.2.1 := by
    rcases hab with h | ⟨e, h⟩
    · exact absurd (hw ▸ h) (lt_irrefl _)
    · rcases hba with h' | ⟨e', h'⟩
      · exact absurd (hw ▸ h') (lt_irrefl _)
      · rcases h with h | ⟨f, _⟩
        · rcases h' with h' | ⟨f', _⟩
          · exact absurd (h.trans h') (lt_irrefl _)
          · exact f'
        · exact f.symm
  have hj : a.2.2 = b.2.2 := by
    rcases hab with h | ⟨e, h⟩
    · exact absurd (hw ▸ h) (lt_irrefl _)
    · rcases hba with h' | ⟨e', h'⟩
      · exact absurd (hw ▸ h') (lt_irrefl _)
      · rcases h with h | ⟨f, h⟩
        · exact absurd (hi ▸ h) (lt_irrefl _)
        · rcases h' with h' | ⟨f', h'⟩
          · exact absurd (hi ▸ h') (lt_irrefl _)
          · exact le_antisymm h' h
  exact Prod.ext hw (Prod.ext hi hj)

/-- The sorted candidate list of teste.cpp: all upper-triangle edges in
strictly descending (weight, i, j) lexicographic order.  std::sort over a
strict total order has a unique sorted permutation, so insertionSort over
the corresponding total preorder is a faithful model of its result. -/
def sortedEdges (w : Mat) (n : Nat) : List QEdge :=
  List.insertionSort eDesc (edgesOf w n)

/-- The weight-only descending comparator contract shared by
compare_edges_desc (teste.c, part_000, qsort) and Edge::operator<
(teste3.cpp, part_001, std::sort): a may precede b iff b's weight is at
most a's. -/
def wDesc (a b : QEdge) : Prop := b.1 ≤ a.1

instance : DecidableRel wDesc := fun a b => by unfold wDesc; infer_instance

/-- The postcondition qsort/std::sort guarantee for the weight-only
comparator: some permutation of the candidate list that is sorted by
descending weight.  Ties leave the order underdetermined. -/
def qsortSpec (w : Mat) (n : Nat) (l : List QEdge) : Prop :=
  l.Perm (edgesOf w n) ∧ l.Sorted wDesc

instance (w : Mat) (n : Nat) (l : List QEdge) : Decidable (qsortSpec w n l) := by
  unfold qsortSpec; infer_instance

/-- Membership in the upper-triangle enumeration. -/
theorem mem_upperPairs (n : Nat) (p : Pair) :
    p ∈ upperPairs n ↔ p.1 < p.2 ∧ p.2 < n := by
  unfold upperPairs
  simp only [List.mem_flatMap, List.mem_map, List.mem_range, List.mem_range'_1]
  constructor
  · rintro ⟨i, hi, j, ⟨hj1, hj2⟩, rfl⟩
    exact ⟨by omega, by omega⟩
  · rintro ⟨h1, h2⟩
    exact ⟨p.1, by omega, p.2, ⟨by omega, by omega⟩, rfl⟩

/-- The upper-triangle enumeration lists each pair exactly once. -/
theorem nodup_upperPairs (n : Nat) : (upperPairs n).Nodup := by
  unfold upperPairs
  rw [List.nodup_flatMap]
  constructor
  · intro i _
    exact (List.nodup_range' ..).map (fun a b h => by
      simpa using congrArg Prod.snd h)
  · refine (List.nodup_range _).pairwise_of_forall_ne ?_
    intro i _ j _ hne
    simp only [Function.onFun]
    intro p hp hq
    simp only [List.mem_map] at hp hq
    obtain ⟨a, _, rfl⟩ := hp
    obtain ⟨b, _, hb⟩ := hq
    exact hne (by simpa using (congrArg Prod.fst hb).symm)

/-- Column-major enumeration of the same pairs; used only to compute the
candidate count by structural induction. -/
def colPairs : Nat → List Pair
  | 0 => []
  | n+1 => colPairs n ++ (List.range n).map (fun i => (i, n))

theorem mem_colPairs (n : Nat) (p : Pair) :
    p ∈ colPairs n ↔ p.1 < p.2 ∧ p.2 < n := by
  induction n with
  | zero => simp [colPairs]
  | succ m ih =>
    simp only [colPairs, List.mem_append, List.mem_map, List.mem_range, ih]
    constructor
    · rintro (⟨h1, h2⟩ | ⟨i, hi, rfl⟩)
      · exact ⟨h1, by omega⟩
      · exact ⟨hi, by omega⟩
    · rintro ⟨h1, h2⟩
      rcases Nat.lt_succ_iff_lt_or_eq.mp h2 with h | h
      · exact Or.inl ⟨h1, h⟩
      · exact Or.inr ⟨p.1, by omega, by rw [← h]⟩

theorem nodup_colPairs (n : Nat) : (colPairs n).Nodup := by
  induction n with
  | zero => simp [colPairs]
  | succ m ih =>
    refine List.Nodup.append ih ?_ ?_
    · exact (List.nodup_range _).map (fun a b h => by simpa using congrArg Prod.fst h)
    · intro p hp hq
      rw [mem_colPairs] at hp
      simp only [List.mem_map, List.mem_range] at hq
      obtain ⟨i, _, rfl⟩ := hq
      omega

theorem length_colPairs (n : Nat) : (colPairs n).length = n * (n - 1) / 2 := by
  suffices h : 2 * (colPairs n).length = n * (n - 1) by
    rw [← h, Nat.mul_div_cancel_left _ (by norm_num : (0:Nat) < 2)]
  induction n with
  | zero => simp [colPairs]
  | succ m ih =>
    simp only [colPairs, List.length_append, List.length_map, List.length_range,
      Nat.add_sub_cancel]
    cases m with
    | zero => simp [colPairs]
    | succ k =>
      calc 2 * ((colPairs (k+1)).length + (k+1))
          = 2 * (colPairs (k+1)).length + 2 * (k+1) := by ring
        _ = (k+1) * (k+1-1) + 2 * (k+1) := by rw [ih]
        _ = (k+2) * (k+1) := by simp only [Nat.add_sub_cancel]; ring

/-- Row-major and column-major enumerations are permutations of each
other: both are duplicate-free lists of exactly the pairs i < j < n. -/
theorem upperPairs_perm_colPairs (n : Nat) : (upperPairs n).Perm (colPairs n) := by
  rw [List.perm_ext_iff_of_nodup (nodup_upperPairs n) (nodup_colPairs n)]
  intro p
  rw [mem_upperPairs, mem_colPairs]

theorem length_upperPairs (n : Nat) : (upperPairs n).length = n * (n - 1) / 2 := by
  rw [(upperPairs_perm_colPairs n).length_eq, length_colPairs]

/-! ### The main greedy loop (teste.c create_pmfg, part_000 create_pmfg_spqr_only)

Both functions run the same loop:
for (k = 0; k < edge_count and added_edges < max_edges; k++)
  if (oracle accepts edge k) add it;
with max_edges = 3*(n-2) (teste.c) respectively 3*n-6 (part_000), equal as
int arithmetic for every n, including n < 2 where the value is negative.
The budget is therefore an Int here. -/

/-- One pass of the greedy insertion loop.  The oracle parameter stands for
the external planarity check: isPlanar(G plus e) in teste.c,
DynamicPlanarSPQRTree.supportEdge in part_000 (where its try/catch skip
also yields a Boolean outcome). -/
def pmfgLoop (test : List Pair → Pair → Bool) (budget : Int) :
    List Pair → List QEdge → List Pair
  | g, [] => g
  | g, e :: rest =>
    if (g.length : Int) < budget then
      if test g e.2 then pmfgLoop test budget (g ++ [e.2]) rest
      else pmfgLoop test budget g rest
    else g

/-- teste.c create_pmfg / part_000 create_pmfg_spqr_only: sort all candidate
edges by descending weight, then greedily insert under the budget 3n-6.
(The weight-only qsort leaves tie order open; theorems needing an arbitrary
qsort outcome quantify over qsortSpec instead of using sortedEdges.) -/
def create_pmfg (test : List Pair → Pair → Bool) (w : Mat) (n : Nat) : List Pair :=
  pmfgLoop test (3*(n:Int) - 6) [] (sortedEdges w n)

/-- teste.c is_planar_with_edge: temporarily create the edge with newEdge
(append), run the full planarity test, then delEdge the very edge object
just created (drop the appended last element), returning the Boolean. -/
def is_planar_with_edge (isPlanar : List Pair → Bool) (g : List Pair) (u v : Nat) :
    Bool × List Pair :=
  let g' := g ++ [(u, v)]
  let result := isPlanar g'
  (result, g'.dropLast)

/-! ### teste.cpp createPMFG: component-guarded single loop

teste.cpp keeps a NodeArray of component ids, only attempts edges whose
endpoints have different component ids, and its planarity check literally
compares spqrTree.originalGraph().numberOfNodes() with G.numberOfNodes(),
i.e. a node count with itself. -/

/-- The planarity check of teste.cpp createPMFG: the SPQR tree is built on
G itself, so originalGraph().numberOfNodes() == G.numberOfNodes() compares
n with n. -/
def cppIsPlanarCheck (n : Nat) : Bool := n == n

/-- The component relabel loop of teste.cpp: every node whose component id
equals oldComp gets newComp. -/
def relabel (comp : List Nat) (oldComp newComp : Nat) : List Nat :=
  comp.map (fun c => if c = oldComp then newComp else c)

/-- teste.cpp createPMFG main loop.  The budget test
(G.numberOfEdges() >= 3*n - 6) sits at the end of the body, after the
current candidate has been processed. -/
def cppLoop (n : Nat) : List Pair → List Nat → List QEdge → List Pair
  | g, _, [] => g
  | g, comp, e :: rest =>
    let u := e.2.1
    let v := e.2.2
    let st :=
      if comp.getD u 0 ≠ comp.getD v 0 then
        if cppIsPlanarCheck n then
          (g ++ [(u, v)], relabel comp (comp.getD v 0) (comp.getD u 0))
        else (g, comp)
      else (g, comp)
    if 3*(n:Int) - 6 ≤ (st.1.length : Int) then st.1
    else cppLoop n st.1 st.2 rest

/-- teste.cpp createPMFG: nodes start in singleton components 0..n-1. -/
def createPMFG_cpp (w : Mat) (n : Nat) : List Pair :=
  cppLoop n [] (List.range n) (sortedEdges w n)

/-! ### part_000 create_pmfg_incremental, phase 1 ("spanning tree")

The phase keeps a Boolean flag per node and a components counter that
starts at n.  An edge is taken iff at least one endpoint flag is still
false; both flags are then set, and only afterwards does the code test
the flags again to decrement components, so the counter never changes and
the loop guard components > 1 never fires. -/

/-- part_000 create_pmfg_incremental phase 1, literally including the dead
decrements of the components counter. -/
def treePhase : List Bool → Int → List Pair → List QEdge → List Pair
  | _, _, g, [] => g
  | conn, comps, g, e :: rest =>
    let i := e.2.1
    let j := e.2.2
    if 1 < comps then
      if ¬(conn.getD i false) ∨ ¬(conn.getD j false) then
        let conn' := (conn.set i true).set j true
        let comps' := comps - (if ¬(conn'.getD i false) then 1 else 0)
                            - (if ¬(conn'.getD j false) then 1 else 0)
        treePhase conn' comps' (g ++ [(i, j)]) rest
      else treePhase conn comps g rest
    else g

/-! ### part_001 main, spanning-tree loop with a real union-find

OGDF's UnionFind is an external structure whose observable contract is:
find x = find y iff x and y were merged into one block.  It is modelled
by a list of component representatives; unionBlocks relabels the block of
the second argument to the representative of the first. -/

/-- find of the modelled union-find: the stored representative. -/
def ufFind (comp : List Nat) (x : Nat) : Nat := comp.getD x x

/-- unionBlocks of the modelled union-find. -/
def ufUnion (comp : List Nat) (a b : Nat) : List Nat :=
  relabel comp (ufFind comp b) (ufFind comp a)

/-- part_001 spanning-tree loop: scan the candidate list while fewer than
n-1 edges are committed, taking exactly the edges whose endpoints lie in
different union-find blocks. -/
def treePhaseUF (n : Nat) : List Nat → Nat → List Pair → List QEdge → List Pair
  | _, _, g, [] => g
  | comp, added, g, e :: rest =>
    let s := e.2.1
    let t := e.2.2
    if added < n - 1 then
      if ufFind comp s ≠ ufFind comp t then
        treePhaseUF n (ufUnion comp s t) (added + 1) (g ++ [(s, t)]) rest
      else treePhaseUF n comp added g rest
    else g

/-! ### teste3.cpp PMFGGenerator::createPMFG

Candidates come from a CSV edge list, so endpoints are arbitrary ints and
duplicates can occur.  The loop validates indices, consults the addedEdges
hash set of normalized pairs and silently continues on a duplicate, and
otherwise asks the SPQR oracle and commits. -/

/-- A CSV candidate row of teste3.cpp: source, target, weight. -/
abbrev IEdge := Int × Int × ℚ

/-- teste3.cpp normalizeEdge: order the endpoints ascending for duplicate
lookup. -/
def normalizeEdge (s t : Int) : Int × Int := if s < t then (s, t) else (t, s)

/-- teste3.cpp createPMFG.  State: committed edges in original orientation
(the graph), and the addedEdges set of normalized pairs in insertion
order.  addedEdgeCount always equals the length of the second component.
The support oracle stands for DynamicPlanarSPQRTree::supportEdge, with
the surrounding try/catch folded into a false answer. -/
def createPMFG3 (support : List (Int × Int) → Int → Int → Bool) (n : Int) :
    List (Int × Int) × List (Int × Int) → List IEdge → List (Int × Int) × List (Int × Int)
  | st, [] => st
  | (g, added), e :: rest =>
    let s := e.1
    let t := e.2.1
    if (added.length : Int) < 3*n - 6 then
      if n ≤ s ∨ n ≤ t ∨ s < 0 ∨ t < 0 then createPMFG3 support n (g, added) rest
      else if normalizeEdge s t ∈ added then createPMFG3 support n (g, added) rest
      else if support g s t then
        createPMFG3 support n (g ++ [(s, t)], added ++ [normalizeEdge s t]) rest
      else createPMFG3 support n (g, added) rest
    else (g, added)

/-! ### part_001 main, bounded top-K candidate selection

std::priority_queue with Edge::operator< comparing weights ascending is a
max-heap: top() is the strongest retained edge.  A heap whose only
observable operations are push, top (the maximum) and pop (remove the
maximum) is modelled by a list kept sorted in descending weight order. -/

/-- Insert into the descending-sorted heap model. -/
def heapPush : List QEdge → QEdge → List QEdge
  | [], e => [e]
  | t :: r, e => if t.1 < e.1 then e :: t :: r else t :: heapPush r e

/-- One candidate of the part_001 scan: push while below bufferSize,
otherwise compare against top() (the maximum) and replace it when the
newcomer is strictly heavier.  (top() on an empty full buffer, which the
source would hit only when bufferSize = 0, keeps the buffer empty.) -/
def heapStep (bufferSize : Nat) (buf : List QEdge) (e : QEdge) : List QEdge :=
  if buf.length < bufferSize then heapPush buf e
  else
    match buf with
    | [] => []
    | t :: r => if t.1 < e.1 then heapPush r e else t :: r

/-- The retained buffer after scanning the whole candidate stream. -/
def topKSelect (bufferSize : Nat) (stream : List QEdge) : List QEdge :=
  stream.foldl (heapStep bufferSize) []

/-- part_001 then pops every element (descending, since each pop removes
the maximum) and reverses, so construction receives the reverse of the
descending buffer. -/
def part001Handed (bufferSize : Nat) (stream : List QEdge) : List QEdge :=
  (topKSelect bufferSize stream).reverse

/-- part_001 bufferSize = min(maxEdges * 10, 100000) with
maxEdges = 3*(n-2). -/
def part001BufferSize (n : Nat) : Nat := min (3*(n-2)*10) 100000

/-! ### Statistics (teste.c / part_000 print_pmfg_stats) -/

/-- The utilization divisor of print_pmfg_stats: 3*n-6 (part_000) and the
algebraically equal 3*(n-2) (teste.c), as C int arithmetic. -/
def max_planar_edges (n : Nat) : Int := 3*(n:Int) - 6

/-- The density divisor n*(n-1)/2 of print_pmfg_stats. -/
def density_denominator (n : Nat) : Int := ((n:Int) * ((n:Int) - 1)) / 2

/-! ### Concrete inputs used by the counterexamples and witnesses -/

/-- The 4-node end-to-end example matrix of the specification:
w(0,1)=0.9, w(0,2)=0.8, w(0,3)=0.1, w(1,2)=0.7, w(1,3)=0.6, w(2,3)=0.95
(upper triangle; only i < j entries are ever read). -/
def w4 : Mat := fun i j =>
  if i = 0 ∧ j = 1 then mkRat 9 10
  else if i = 0 ∧ j = 2 then mkRat 8 10
  else if i = 0 ∧ j = 3 then mkRat 1 10
  else if i = 1 ∧ j = 2 then mkRat 7 10
  else if i = 1 ∧ j = 3 then mkRat 6 10
  else if i = 2 ∧ j = 3 then mkRat 95 100
  else 0

/-- A 4-node matrix whose descending order starts (0,1), (2,3), (0,2):
after the two disjoint tree edges (0,1) and (2,3), the bridging candidate
(0,2) joins two touched but mutually disconnected components. -/
def wc4 : Mat := fun i j =>
  if i = 0 ∧ j = 1 then mkRat 9 10
  else if i = 2 ∧ j = 3 then mkRat 8 10
  else if i = 0 ∧ j = 2 then mkRat 7 10
  else if i = 0 ∧ j = 3 then mkRat 3 10
  else if i = 1 ∧ j = 2 then mkRat 2 10
  else if i = 1 ∧ j = 3 then mkRat 1 10
  else 0

/-- A 3-node matrix with a weight tie between (0,1) and (0,2). -/
def w3tie : Mat := fun i j =>
  if i = 0 ∧ j = 1 then 5
  else if i = 0 ∧ j = 2 then 5
  else if i = 1 ∧ j = 2 then 1
  else 0

/-- A 3-node matrix whose candidate stream has strictly increasing
weights 1, 2, 3 in scan order. -/
def wInc : Mat := fun i j =>
  if i = 0 ∧ j = 1 then 1
  else if i = 0 ∧ j = 2 then 2
  else if i = 1 ∧ j = 2 then 3
  else 0

/-- The all-ones matrix (every weight finite). -/
def wOne : Mat := fun _ _ => 1

/-- An oracle accepting every edge; a correct planarity oracle behaves
exactly like this on at most four nodes, where every simple graph is
planar. -/
def acceptAll : List Pair → Pair → Bool := fun _ _ => true

/-- The teste3.cpp support oracle accepting every edge (correct on at
most four nodes). -/
def acceptAll3 : List (Int × Int) → Int → Int → Bool := fun _ _ _ => true

/-- A teste3.cpp candidate list containing the pair (0,1) twice. -/
def dupInput : List IEdge := [(0, 1, 5), (0, 1, 5), (1, 2, 4)]

/-- One weight-sorted arrangement of the w3tie candidates: tie (0,1)
before (0,2). -/
def ql1 : List QEdge := [(5, (0, 1)), (5, (0, 2)), (1, (1, 2))]

/-- The other weight-sorted arrangement of the w3tie candidates: tie
(0,2) before (0,1). -/
def ql2 : List QEdge := [(5, (0, 2)), (5, (0, 1)), (1, (1, 2))]

/-! ### General lemmas about the greedy loop -/

theorem length_edgesOf (w : Mat) (n : Nat) :
    (edgesOf w n).length = n * (n - 1) / 2 := by
  simp [edgesOf, length_upperPairs]

/-- Once the budget check fails the loop exits with the graph unchanged. -/
theorem pmfgLoop_stop (test : List Pair → Pair → Bool) (b : Int)
    (g : List Pair) (cs : List QEdge) (h : ¬ ((g.length : Int) < b)) :
    pmfgLoop test b g cs = g := by
  cases cs with
  | nil => rfl
  | cons e rest => simp [pmfgLoop, h]

/-- Processing a candidate list in two stages agrees with processing it in
one pass: every state after some number of processed candidates is the
loop run on that prefix. -/
theorem pmfgLoop_append (test : List Pair → Pair → Bool) (b : Int)
    (xs ys : List QEdge) (g : List Pair) :
    pmfgLoop test b g (xs ++ ys) = pmfgLoop test b (pmfgLoop test b g xs) ys := by
  induction xs generalizing g with
  | nil => rfl
  | cons e xs ih =>
    by_cases h : (g.length : Int) < b
    · by_cases ht : test g e.2 <;> simp [pmfgLoop, h, ht, ih]
    · rw [List.cons_append, pmfgLoop_stop _ _ _ _ h, pmfgLoop_stop _ _ _ _ h,
        pmfgLoop_stop _ _ _ _ h]

/-- The loop only appends: the result is the initial graph followed by a
selection (sublist) of the candidate pairs in candidate order. -/
theorem pmfgLoop_sublist (test : List Pair → Pair → Bool) (b : Int)
    (cs : List QEdge) (g : List Pair) :
    ∃ sel, sel.Sublist (cs.map Prod.snd) ∧ pmfgLoop test b g cs = g ++ sel := by
  induction cs generalizing g with
  | nil => exact ⟨[], List.nil_sublist _, by simp [pmfgLoop]⟩
  | cons e cs ih =>
    by_cases h : (g.length : Int) < b
    · by_cases ht : test g e.2
      · obtain ⟨sel, hs, he⟩ := ih (g ++ [e.2])
        refine ⟨e.2 :: sel, hs.cons₂ _, ?_⟩
        simp only [pmfgLoop, h, ht, if_true]
        rw [he]
        simp
      · obtain ⟨sel, hs, he⟩ := ih g
        exact ⟨sel, hs.cons _, by simp only [pmfgLoop, h, ht, if_true, if_false]; exact he⟩
    · exact ⟨[], List.nil_sublist _, by rw [pmfgLoop_stop _ _ _ _ h]; simp⟩

/-- The loop never exceeds the budget. -/
theorem pmfgLoop_length_le (test : List Pair → Pair → Bool) (b : Int)
    (cs : List QEdge) (g : List Pair) (hg : (g.length : Int) ≤ b) :
    ((pmfgLoop test b g cs).length : Int) ≤ b := by
  induction cs generalizing g with
  | nil => simpa [pmfgLoop] using hg
  | cons e cs ih =>
    by_cases h : (g.length : Int) < b
    · by_cases ht : test g e.2
      · simp only [pmfgLoop, h, ht, if_true]
        refine ih _ ?_
        simp only [List.length_append, List.length_singleton]
        push_cast
        omega
      · simp only [pmfgLoop, h, ht, if_true, if_false]
        exact ih _ hg
    · rw [pmfgLoop_stop _ _ _ _ h]
      exact hg

/-- Any predicate preserved by oracle-approved insertions is an invariant
of the loop. -/
theorem pmfgLoop_pred (test : List Pair → Pair → Bool) (b : Int)
    (P : List Pair → Prop)
    (hsound : ∀ g p, test g p = true → P (g ++ [p]))
    (cs : List QEdge) (g : List Pair) (hg : P g) :
    P (pmfgLoop test b g cs) := by
  induction cs generalizing g with
  | nil => simpa [pmfgLoop] using hg
  | cons e cs ih =>
    by_cases h : (g.length : Int) < b
    · by_cases ht : test g e.2
      · simp only [pmfgLoop, h, ht, if_true]
        exact ih _ (hsound _ _ ht)
      · simp only [pmfgLoop, h, ht, if_true, if_false]
        exact ih _ hg
    · rw [pmfgLoop_stop _ _ _ _ h]
      exact hg

/-- Once the teste3.cpp budget check fails the scan exits with the state
unchanged. -/
theorem createPMFG3_stop (support : List (Int × Int) → Int → Int → Bool)
    (n : Int) (g added : List (Int × Int)) (l : List IEdge)
    (h : ¬ ((added.length : Int) < 3*n - 6)) :
    createPMFG3 support n (g, added) l = (g, added) := by
  cases l with
  | nil => rfl
  | cons e rest => simp [createPMFG3, h]

/-- For n at most 2 the int budget 3n-6 is non-positive, so the loop body
never runs: the degenerate construction returns the empty graph. -/
theorem create_pmfg_small (test : List Pair → Pair → Bool) (w : Mat)
    (n : Nat) (hn : n ≤ 2) :
    create_pmfg test w n = [] := by
  unfold create_pmfg
  refine pmfgLoop_stop _ _ _ _ ?_
  simp only [List.length_nil, Int.ofNat_zero]
  omega

/-! ### Claim theorems -/

/-- Claim C1: for every weight matrix input on n >= 3 nodes and any sound
planarity oracle (formally: any predicate P that holds of the empty graph
and is preserved whenever the oracle approves an insertion — actual
planarity qualifies, since the sources only commit oracle-approved edges),
the working graph after every single commit and at completion satisfies P,
has no duplicate edges, has no self-loops (every committed pair is i < j
with j < n), and carries at most 3n-6 edges; and a state that reaches 3n-6
edges terminates the loop: the final graph equals that state.  States
after each commit are exactly the loop results on prefixes of the
candidate list, so the statement quantifies over prefixes. -/
theorem C1_invariants_hold
    (n : Nat) (hn : 3 ≤ n) (test : List Pair → Pair → Bool)
    (P : List Pair → Prop) (hP0 : P [])
    (hsound : ∀ g p, test g p = true → P (g ++ [p]))
    (l : List QEdge)
    (hmem : ∀ e ∈ l, e.2.1 < e.2.2 ∧ e.2.2 < n)
    (hnd : (l.map Prod.snd).Nodup)
    (cs : List QEdge) (hpre : cs.IsPrefix l) :
    P (pmfgLoop test (3*(n:Int) - 6) [] cs) ∧
    (pmfgLoop test (3*(n:Int) - 6) [] cs).Nodup ∧
    (∀ p ∈ pmfgLoop test (3*(n:Int) - 6) [] cs, p.1 < p.2 ∧ p.2 < n) ∧
    ((pmfgLoop test (3*(n:Int) - 6) [] cs).length : Int) ≤ 3*(n:Int) - 6 ∧
    (((pmfgLoop test (3*(n:Int) - 6) [] cs).length : Int) = 3*(n:Int) - 6 →
      pmfgLoop test (3*(n:Int) - 6) [] l = pmfgLoop test (3*(n:Int) - 6) [] cs) := by
  obtain ⟨sel, hsub, heq⟩ := pmfgLoop_sublist test (3*(n:Int) - 6) cs []
  have hsel : sel.Sublist (l.map Prod.snd) := hsub.trans (hpre.map Prod.snd).sublist
  refine ⟨?_, ?_, ?_, ?_, ?_⟩
  · exact pmfgLoop_pred _ _ P hsound cs [] hP0
  · rw [heq, List.nil_append]
    exact hnd.sublist hsel
  · intro p hp
    rw [heq, List.nil_append] at hp
    have := hsel.subset hp
    simp only [List.mem_map] at this
    obtain ⟨e, hel, rfl⟩ := this
    exact hmem e hel
  · refine pmfgLoop_length_le _ _ _ _ ?_
    simp only [List.length_nil, Int.ofNat_zero]
    omega
  · intro hfull
    obtain ⟨ds, rfl⟩ := hpre
    rw [pmfgLoop_append, pmfgLoop_stop _ _ _ _ (by omega)]

/-- Claim C1 witness: a concrete instance (n = 3, all-ones matrix,
accept-all oracle, trivial invariant, the full candidate list) with every
hypothesis discharged. -/
theorem C1_witness :
    (pmfgLoop acceptAll (3*((3:Nat):Int) - 6) [] (sortedEdges wOne 3)).Nodup ∧
    ((pmfgLoop acceptAll (3*((3:Nat):Int) - 6) [] (sortedEdges wOne 3)).length : Int)
      ≤ 3*((3:Nat):Int) - 6 := by
  have h := C1_invariants_hold 3 (by norm_num) acceptAll (fun _ => True) trivial
    (fun _ _ _ => trivial) (sortedEdges wOne 3) (by decide) (by decide)
    (sortedEdges wOne 3) (List.prefix_refl _)
  exact ⟨h.2.1, h.2.2.2.1⟩

/-- Claim C3 (amended): the candidate index of teste.cpp contains every
unordered pair i < j < n exactly once — n(n-1)/2 edges in all — sorted
descending by weight with equal weights ordered by DESCENDING (i, j)
lexicographic order (what std::sort over reversed iterators on tuples
(weight, i, j) produces), and this arrangement is unique, hence a
deterministic function of the input matrix. -/
theorem C3_candidate_index (w : Mat) (n : Nat) :
    (sortedEdges w n).Perm (edgesOf w n) ∧
    List.Sorted eDesc (sortedEdges w n) ∧
    (sortedEdges w n).length = n * (n - 1) / 2 ∧
    ((sortedEdges w n).map Prod.snd).Nodup ∧
    (∀ p : Pair, p ∈ (sortedEdges w n).map Prod.snd ↔ p.1 < p.2 ∧ p.2 < n) ∧
    (∀ l : List QEdge, l.Perm (edgesOf w n) → List.Sorted eDesc l →
      l = sortedEdges w n) := by
  have hperm : (sortedEdges w n).Perm (edgesOf w n) := List.perm_insertionSort eDesc _
  have hsnd : (edgesOf w n).map Prod.snd = upperPairs n := by
    simp [edgesOf, List.map_map, Function.comp_def]
  have hmp : ((sortedEdges w n).map Prod.snd).Perm (upperPairs n) :=
    hsnd ▸ hperm.map Prod.snd
  refine ⟨hperm, List.sorted_insertionSort eDesc _, ?_, ?_, ?_, ?_⟩
  · rw [hperm.length_eq, length_edgesOf]
  · exact hmp.nodup_iff.mpr (nodup_upperPairs n)
  · intro p
    rw [hmp.mem_iff, mem_upperPairs]
  · intro l hp hs
    exact List.eq_of_perm_of_sorted (hp.trans hperm.symm) hs
      (List.sorted_insertionSort eDesc _)

/-- Claim C3 witness: the uniqueness clause applied at the concrete tied
matrix w3tie, with permutation and sortedness discharged by evaluation. -/
theorem C3_witness :
    [((5:ℚ), ((0:Nat), (2:Nat))), (5, (0, 1)), (1, (1, 2))] = sortedEdges w3tie 3 :=
  (C3_candidate_index w3tie 3).2.2.2.2.2 _ (by decide) (by decide)

/-- Claim C3 counterexample: on the tied matrix w3tie the produced order
places (0,2) before (0,1) — descending (i, j) on ties — refuting the
claimed ascending lexicographic tie-break. -/
theorem C3_counterexample :
    sortedEdges w3tie 3 = [((5:ℚ), ((0:Nat), (2:Nat))), (5, (0, 1)), (1, (1, 2))] ∧
    sortedEdges w3tie 3 ≠ [((5:ℚ), ((0:Nat), (1:Nat))), (5, (0, 2)), (1, (1, 2))] := by
  decide

/-- Claim C6 (amended): under the full-tuple comparator of teste.cpp the
sorted candidate list is unique — any two lists that are weight-and-index
sorted permutations of the same candidate set are equal — so two runs on
identical input commit identical edge sequences. -/
theorem C6_deterministic_total_tiebreak
    (w : Mat) (n : Nat) (test : List Pair → Pair → Bool) (b : Int)
    (l1 l2 : List QEdge)
    (h1p : l1.Perm (edgesOf w n)) (h1s : List.Sorted eDesc l1)
    (h2p : l2.Perm (edgesOf w n)) (h2s : List.Sorted eDesc l2) :
    l1 = l2 ∧ pmfgLoop test b [] l1 = pmfgLoop test b [] l2 := by
  have he : l1 = l2 := List.eq_of_perm_of_sorted (h1p.trans h2p.symm) h1s h2s
  exact ⟨he, by rw [he]⟩

/-- Claim C6 witness: the determinism theorem applied to two concrete
sorted arrangements of the w3tie candidates under the full-tuple order. -/
theorem C6_witness :
    sortedEdges w3tie 3 = [((5:ℚ), ((0:Nat), (2:Nat))), (5, (0, 1)), (1, (1, 2))] ∧
    pmfgLoop acceptAll 3 [] (sortedEdges w3tie 3) =
      pmfgLoop acceptAll 3 [] [((5:ℚ), ((0:Nat), (2:Nat))), (5, (0, 1)), (1, (1, 2))] :=
  C6_deterministic_total_tiebreak w3tie 3 acceptAll 3 _ _
    (by decide) (by decide) (by decide) (by decide)

/-- Claim C6 counterexample: with the weight-only comparator of teste.c
and teste3.cpp, an unstable sort may emit either ql1 or ql2 for the tied
matrix w3tie — both satisfy the qsort postcondition — and the two
conforming runs commit the same three edges in different orders, so runs
are not determined by the input alone. -/
theorem C6_counterexample :
    qsortSpec w3tie 3 ql1 ∧ qsortSpec w3tie 3 ql2 ∧
    pmfgLoop acceptAll 3 [] ql1 ≠ pmfgLoop acceptAll 3 [] ql2 := by
  decide

/-- Claim C7: the planarity query of teste.c is pure: is_planar_with_edge
returns the oracle verdict on the graph extended with (u, v), and the
graph it leaves behind is exactly the input graph — the temporarily
created edge object is deleted again — for every graph and pair,
whatever the verdict; the oracle itself is a function and carries no
mutable state. -/
theorem C7_test_is_pure (isPlanar : List Pair → Bool) (g : List Pair) (u v : Nat) :
    (is_planar_with_edge isPlanar g u v).2 = g ∧
    (is_planar_with_edge isPlanar g u v).1 = isPlanar (g ++ [(u, v)]) := by
  refine ⟨?_, rfl⟩
  simp [is_planar_with_edge]

/-- Claim C5 (amended): a candidate whose normalized pair is already in
the addedEdges set is silently skipped: the orchestrator state (graph and
set) is unchanged at that step and the scan simply continues with the
remaining candidates; no error is raised — teste3.cpp has no
InvariantViolation path, duplicates never reach commit. -/
theorem C5_duplicate_skipped
    (support : List (Int × Int) → Int → Int → Bool) (n : Int)
    (g added : List (Int × Int)) (s t : Int) (wv : ℚ) (rest : List IEdge)
    (hdup : normalizeEdge s t ∈ added)
    (hbudget : (added.length : Int) < 3*n - 6)
    (hvalid : ¬(n ≤ s ∨ n ≤ t ∨ s < 0 ∨ t < 0)) :
    createPMFG3 support n (g, added) ((s, t, wv) :: rest) =
      createPMFG3 support n (g, added) rest := by
  simp [createPMFG3, hbudget, hvalid, hdup]

/-- Claim C5 witness: the duplicate-skip theorem at a concrete state
already containing the normalized pair (0,1). -/
theorem C5_witness :
    createPMFG3 acceptAll3 3 ([(0, 1)], [(0, 1)]) [((0:Int), (1:Int), (5:ℚ))] =
      createPMFG3 acceptAll3 3 ([(0, 1)], [(0, 1)]) [] :=
  C5_duplicate_skipped acceptAll3 3 [(0, 1)] [(0, 1)] 0 1 5 []
    (by decide) (by decide) (by decide)

/-- Claim C5 counterexample: feeding the already-committed pair (0,1)
again neither fails nor changes state — the run completes normally; on
dupInput the duplicate row is silently dropped and the later candidate
(1,2) is still committed. -/
theorem C5_counterexample :
    createPMFG3 acceptAll3 3 ([(0, 1)], [(0, 1)]) [((0:Int), (1:Int), (5:ℚ))]
      = ([(0, 1)], [(0, 1)]) ∧
    createPMFG3 acceptAll3 3 ([], []) dupInput
      = ([(0, 1), (1, 2)], [(0, 1), (1, 2)]) := by
  decide

/-- Claim C8 (amended): for n < 3 the construction succeeds and returns
the empty graph — at most n-1 edges, as claimed for n = 1, but for n = 2
it yields zero edges rather than the single pair: the int budget 3n-6 is
non-positive, so the loop guard fails before the lone candidate is ever
examined, in teste.c/part_000 and in teste3.cpp alike. -/
theorem C8_degenerate_zero_edges
    (test : List Pair → Pair → Bool) (w : Mat)
    (support : List (Int × Int) → Int → Int → Bool) (l : List IEdge)
    (n : Nat) (hn : n ≤ 2) :
    create_pmfg test w n = [] ∧ createPMFG3 support (n : Int) ([], []) l = ([], []) := by
  refine ⟨create_pmfg_small test w n hn, createPMFG3_stop support (n:Int) [] [] l ?_⟩
  simp only [List.length_nil, Int.ofNat_zero]
  omega

/-- Claim C8 witness: the degenerate statement at n = 2 with every weight
finite. -/
theorem C8_witness :
    create_pmfg acceptAll wOne 2 = [] ∧
    createPMFG3 acceptAll3 ((2:Nat) : Int) ([], []) dupInput = ([], []) :=
  C8_degenerate_zero_edges acceptAll wOne acceptAll3 dupInput 2 (by norm_num)

/-- Claim C8 counterexample: for n = 2 with the finite all-ones matrix the
construction returns zero edges, not the single pair (0,1) the claim
promises. -/
theorem C8_counterexample :
    create_pmfg acceptAll wOne 2 = [] ∧ create_pmfg acceptAll wOne 2 ≠ [(0, 1)] := by
  decide

/-- Claim C2 (code-bug evidence): on the 4-node example matrix the
candidate order is exactly the claimed one, but teste.cpp createPMFG
commits only the three spanning-tree edges (2,3), (0,1), (0,2): its
component guard rejects every candidate whose endpoints are already
connected, so the saturation candidates (1,2), (1,3), (0,3) are never
committed and the result is not K4 with 6 edges. -/
theorem C2_cpp_stops_at_tree :
    sortedEdges w4 4 =
      [(mkRat 95 100, ((2:Nat), (3:Nat))), (mkRat 9 10, (0, 1)), (mkRat 8 10, (0, 2)),
       (mkRat 7 10, (1, 2)), (mkRat 6 10, (1, 3)), (mkRat 1 10, (0, 3))] ∧
    createPMFG_cpp w4 4 = [(2, 3), (0, 1), (0, 2)] ∧
    (createPMFG_cpp w4 4).length = 3 := by
  decide

/-- Claim C4 (code-bug evidence): on the matrix wc4 the part_000 tree
phase (connectivity flags, dead components decrements) commits only
(0,1) and (2,3) and then skips the bridging candidate (0,2) although its
endpoints lie in two disconnected components — the result is not a
spanning tree — while the genuine union-find loop of part_001 on the same
candidates commits (0,1), (2,3), (0,2) and stops at n-1 = 3 edges. -/
theorem C4_tree_phase_divergence :
    treePhase (List.replicate 4 false) 4 [] (sortedEdges wc4 4) = [(0, 1), (2, 3)] ∧
    (0, 2) ∉ treePhase (List.replicate 4 false) 4 [] (sortedEdges wc4 4) ∧
    treePhaseUF 4 (List.range 4) 0 [] (sortedEdges wc4 4) = [(0, 1), (2, 3), (0, 2)] := by
  decide

/-- Claim C9 (code-bug evidence): the bounded candidate buffer does not
retain the K highest-weight edges.  With capacity 2 and the wInc stream
(weights 1, 2, 3 in scan order) the scan keeps weights 1 and 3: when the
buffer is full an incoming heavier edge replaces the buffer MAXIMUM
(std::priority_queue with the ascending-weight comparator is a max-heap),
evicting the second-strongest edge (0,2) and keeping the weakest (0,1).
The buffer is then handed over weakest-first, not in descending order.
At the real parameters the eviction path is reachable: for n = 59 the
buffer capacity 1710 is below the 1711 candidates. -/
theorem C9_topk_selection_wrong :
    topKSelect 2 (edgesOf wInc 3) = [((3:ℚ), ((1:Nat), (2:Nat))), (1, (0, 1))] ∧
    ((2:ℚ), ((0:Nat), (2:Nat))) ∉ topKSelect 2 (edgesOf wInc 3) ∧
    ((1:ℚ), ((0:Nat), (1:Nat))) ∈ topKSelect 2 (edgesOf wInc 3) ∧
    part001Handed 2 (edgesOf wInc 3) = [((1:ℚ), ((0:Nat), (1:Nat))), (3, (1, 2))] ∧
    ¬ List.Sorted wDesc (part001Handed 2 (edgesOf wInc 3)) ∧
    part001BufferSize 59 < (edgesOf wOne 59).length := by
  refine ⟨by decide, by decide, by decide, by decide, by decide, ?_⟩
  rw [length_edgesOf]
  decide

/-- Claim C10: print_pmfg_stats divides the edge count by 3n-6
(equivalently 3(n-2)) and by n(n-1)/2 with no guard on either divisor;
the utilization divisor is zero exactly at n = 2 and negative exactly at
n < 2, both divisors are positive once n >= 3, and the construction
itself accepts n = 2 (returning an empty graph), so the zero-divisor
statistics call is reachable from a degenerate input. -/
theorem C10_stats_divisors :
    max_planar_edges 2 = 0 ∧
    max_planar_edges 1 < 0 ∧
    (∀ n : Nat, (max_planar_edges n = 0 ↔ n = 2) ∧ (max_planar_edges n < 0 ↔ n < 2)) ∧
    (∀ n : Nat, 3 ≤ n → 0 < max_planar_edges n ∧ 0 < density_denominator n) ∧
    (∀ test w, create_pmfg test w 2 = []) := by
  refine ⟨by decide, by decide, ?_, ?_, ?_⟩
  · intro n
    unfold max_planar_edges
    constructor <;> constructor <;> intro h <;> omega
  · intro n hn
    have h3 : (3:Int) ≤ (n:Int) := by exact_mod_cast hn
    constructor
    · unfold max_planar_edges
      omega
    · unfold density_denominator
      have h6 : (6:Int) ≤ (n:Int) * ((n:Int) - 1) := by
        calc (6:Int) = 3 * 2 := by norm_num
          _ ≤ (n:Int) * ((n:Int) - 1) := by
              apply mul_le_mul h3 (by omega) (by norm_num) (by omega)
      have := Int.ediv_le_ediv (by norm_num : (0:Int) < 2) h6
      omega
  · intro test w
    exact create_pmfg_small test w 2 (by norm_num)

/-- Claim C10 witness: the divisor characterization at n = 3 and the
reachable degenerate run at n = 2. -/
theorem C10_witness :
    0 < max_planar_edges 3 ∧ create_pmfg acceptAll wOne 2 = [] :=
  ⟨(C10_stats_divisors.2.2.2.1 3 (by norm_num)).1,
   C10_stats_divisors.2.2.2.2 acceptAll wOne⟩

end PMFG
